import Mathlib

/-!
# Verification of the `specialize_call!` dispatch macro

This file is a shallow embedding of the Rust macro `specialize_call!`
(src/src/macros.rs).  The macro receives a generic function `$func`, a
parenthesised argument list `$args`, a selector expression `$select`, and one
or more mapping groups `[ (pat => ty, ...), ... ]`.  It expands, at compile
time, into

```
loop {
    if matches!(select, (p11, ..., p1m)) { break Some(func::<T11, ...>(args)); }
    ...
    if matches!(select, (pk1, ..., pkm)) { break Some(func::<Tk1, ...>(args)); }
    break None
}
```

where the candidate list is produced by the mutual recursion of the internal
rules `@specialize_call` and `@single_mapping`, and each candidate test is
emitted by `@maybe_invoke`.

Embedding choices, kept as close to the source as Lean allows:

* A selector pattern of the host language is embedded as a boolean test
  `σ → Bool` (the semantics of `matches!` on one tuple component); a concrete
  Rust type argument is embedded as an opaque value of a type `τ`.
* A table entry `($p:pat => $($t:ty),+)` is `Entry`: one pattern, a list of
  type arguments (the list has length > 1 for multi-parameter generics).
* With `m` mapping groups the emitted test is `matches!(select, (p1, ..., pm))`
  against an `m`-tuple; we embed the selector value of a call as the list of
  its tuple components (a singleton list in the common one-group case).
* The generic function is embedded as `f : List τ → α → ρ`: it receives the
  type-argument list of the chosen instantiation and the argument tuple.
* The expanded runtime code is embedded twice: `runCands` is the pure
  first-match chain of the emitted `if`s, and `runExpansion` threads an
  explicit state through the selector and argument expressions, reflecting
  that the macro substitutes those expressions textually into every emitted
  branch (so their side effects happen exactly where the expansion places
  them).
-/

/-- One table entry `($p:pat => $($t:ty),+)` of a mapping group
(src/src/macros.rs line 67): a selector pattern together with the list of
type arguments supplied to the generic function when this entry is chosen. -/
structure Entry (σ τ : Type) where
  pat : σ → Bool
  tys : List τ

/-- One emitted candidate of the expansion: the accumulated component
patterns `( $($acc_p),* )` and accumulated type arguments `( $($acc_t),* )`
handed to `@maybe_invoke` (src/src/macros.rs lines 127-136). -/
structure Cand (σ τ : Type) where
  pats : List (σ → Bool)
  tys : List τ

/-- The test emitted by `@maybe_invoke`:
`matches!($select, ( $($acc_p),* ))` (src/src/macros.rs line 135).  The
selector is the list of its tuple components; the tuple pattern matches when
the arities agree and every component pattern accepts its component. -/
def matchCand {σ τ : Type} (c : Cand σ τ) (s : List σ) : Bool :=
  (c.pats.length == s.length) && (List.zipWith (fun p x => p x) c.pats s).all (fun b => b)

mutual

/-- The internal rule `@specialize_call` (src/src/macros.rs lines 93-125):
given the accumulated patterns and type arguments, either recurses into the
head mapping group via `@single_mapping`, or — when the group list is
exhausted — emits the one candidate accumulated so far (`@maybe_invoke`). -/
def specializeCallRec {σ τ : Type} (accP : List (σ → Bool)) (accT : List τ)
    (gss : List (List (Entry σ τ))) : List (Cand σ τ) :=
  match gss with
  | [] => [Cand.mk accP accT]
  | g :: gs => singleMapping accP accT g gs
termination_by sizeOf gss

/-- The internal rule `@single_mapping` (src/src/macros.rs lines 63-91):
for each entry of the current mapping group, first emit all candidates that
extend the accumulators with this entry's pattern and type arguments
(recursing into the remaining groups), then continue with the rest of the
group; an exhausted group emits nothing. -/
def singleMapping {σ τ : Type} (accP : List (σ → Bool)) (accT : List τ)
    (es : List (Entry σ τ)) (gss : List (List (Entry σ τ))) : List (Cand σ τ) :=
  match es with
  | [] => []
  | e :: tl =>
      specializeCallRec (accP ++ [e.pat]) (accT ++ e.tys) gss
        ++ singleMapping accP accT tl gss
termination_by sizeOf es + sizeOf gss

end

/-- The chain of emitted `@maybe_invoke` conditionals inside the `loop`
(src/src/macros.rs lines 135 and 139-148): the first candidate whose tuple
pattern matches the selector breaks out with `Some(func::<tys>(args))`;
falling through every candidate reaches `break None`. -/
def runCands {σ τ α ρ : Type} (f : List τ → α → ρ) (a : α) (s : List σ) :
    List (Cand σ τ) → Option ρ
  | [] => none
  | c :: cs => if matchCand c s then some (f c.tys a) else runCands f a s cs

/-- The top-level rule of `specialize_call!` (src/src/macros.rs lines
138-149): expand the mapping groups starting from empty accumulators and run
the emitted first-match chain. -/
def specialize_call {σ τ α ρ : Type} (f : List τ → α → ρ) (a : α) (s : List σ)
    (mappings : List (List (Entry σ τ))) : Option ρ :=
  runCands f a s (specializeCallRec [] [] mappings)

/-- The expansion with the selector and argument expressions kept as
expressions: the macro substitutes `$select` and `$($arg),*` textually into
every emitted branch, so each tested candidate evaluates the selector
expression once, and the taken branch evaluates the argument expressions
once.  `selE` and `argE` are those expressions as state transformers. -/
def runExpansion {σ τ α ρ St : Type} (f : List τ → α → ρ)
    (selE : St → St × List σ) (argE : St → St × α) :
    List (Cand σ τ) → St → St × Option ρ
  | [], st => (st, none)
  | c :: cs, st =>
      let p := selE st
      if matchCand c p.2 then
        let q := argE p.1
        (q.1, some (f c.tys q.2))
      else runExpansion f selE argE cs p.1

/-- The flat candidate list as the specification describes it (used to state
the refinement claim about multiple mapping groups): the Cartesian product of
the groups, one pattern drawn from each group, type arguments concatenated,
listed in lexicographic order of group-rule indices with earlier groups
varying more slowly. -/
def cartesianRules {σ τ : Type} : List (List (Entry σ τ)) → List (Cand σ τ)
  | [] => [Cand.mk [] []]
  | g :: gs =>
      g.flatMap fun e =>
        (cartesianRules gs).map fun c => Cand.mk (e.pat :: c.pats) (e.tys ++ c.tys)
termination_by gss => sizeOf gss

/-- The example operation of the macro's documentation test (`do_it`,
src/src/macros.rs lines 22-24), embedded as returning the list of type
arguments it was instantiated with, as `type_name` does there. -/
def nameF : List Nat → Nat → List Nat := fun tys _ => tys

theorem matchCand_single {σ τ : Type} (p : σ → Bool) (ts : List τ) (sv : σ) :
    matchCand (Cand.mk [p] ts) [sv] = p sv := by
  simp [matchCand]

theorem emit_eq_cart {σ τ : Type} :
    ∀ (gss : List (List (Entry σ τ))) (accP : List (σ → Bool)) (accT : List τ),
      specializeCallRec accP accT gss
        = (cartesianRules gss).map fun c => Cand.mk (accP ++ c.pats) (accT ++ c.tys) := by
  intro gss
  induction gss with
  | nil =>
      intro accP accT
      simp [specializeCallRec, cartesianRules]
  | cons g gs ih =>
      intro accP accT
      have inner : ∀ es : List (Entry σ τ),
          singleMapping accP accT es gs
            = es.flatMap fun e =>
                (cartesianRules gs).map fun c =>
                  Cand.mk (accP ++ e.pat :: c.pats) (accT ++ (e.tys ++ c.tys)) := by
        intro es
        induction es with
        | nil => simp [singleMapping]
        | cons e tl ihe =>
            rw [singleMapping, ih, ihe]
            simp [List.map_map, Function.comp, List.append_assoc]
      rw [specializeCallRec, inner]
      simp [cartesianRules, List.map_flatMap, List.map_map, Function.comp_def]

theorem emit_single_group {σ τ : Type} (g : List (Entry σ τ)) :
    specializeCallRec ([] : List (σ → Bool)) [] [g]
      = g.map fun e => Cand.mk [e.pat] e.tys := by
  have single : ∀ (h : Entry σ τ → Cand σ τ) (l : List (Entry σ τ)),
      (l.flatMap fun a => [h a]) = l.map h := by
    intro h l
    induction l with
    | nil => simp
    | cons e tl ih => simp [ih]
  rw [emit_eq_cart]
  simp only [cartesianRules, List.map_flatMap]
  simpa using single (fun e => Cand.mk [e.pat] e.tys) g

theorem runCands_eq_find {σ τ α ρ : Type} (f : List τ → α → ρ) (a : α) (s : List σ) :
    ∀ l : List (Cand σ τ),
      runCands f a s l = (l.find? fun c => matchCand c s).map fun c => f c.tys a := by
  intro l
  induction l with
  | nil => simp [runCands]
  | cons c cs ih =>
      by_cases h : matchCand c s
      · simp [runCands, h, List.find?_cons_of_pos]
      · simp only [runCands]
        rw [List.find?_cons_of_neg _ (by simp [h]), if_neg (by simp [h]), ih]

theorem runCands_first {σ τ α ρ : Type} (f : List τ → α → ρ) (a : α) (s : List σ) :
    ∀ (l : List (Cand σ τ)) (i : Nat) (hi : i < l.length),
      matchCand (l.get ⟨i, hi⟩) s = true →
      (∀ (j : Nat) (hj : j < l.length), j < i → matchCand (l.get ⟨j, hj⟩) s = false) →
      runCands f a s l = some (f (l.get ⟨i, hi⟩).tys a) := by
  intro l
  induction l with
  | nil => intro i hi; exact absurd hi (by simp)
  | cons c cs ih =>
      intro i hi hm hfirst
      match i with
      | 0 =>
          simp only [List.get] at hm ⊢
          simp [runCands, hm]
      | k + 1 =>
          have hc : matchCand c s = false := hfirst 0 (by simp) (Nat.succ_pos k)
          simp only [List.get] at hm ⊢
          rw [runCands, if_neg (by simp [hc])]
          exact ih k (Nat.lt_of_succ_lt_succ (by simpa using hi)) hm
            (fun j hj hji =>
              hfirst (j + 1) (by simpa using Nat.succ_lt_succ hj) (Nat.succ_lt_succ hji))

theorem findIdx_of_first {β : Type} (p : β → Bool) :
    ∀ (l : List β) (i : Nat) (hi : i < l.length),
      p (l.get ⟨i, hi⟩) = true →
      (∀ (j : Nat) (hj : j < l.length), j < i → p (l.get ⟨j, hj⟩) = false) →
      l.findIdx p = i := by
  intro l
  induction l with
  | nil => intro i hi; exact absurd hi (by simp)
  | cons c cs ih =>
      intro i hi hm hfirst
      match i with
      | 0 =>
          simp only [List.get] at hm
          simp [List.findIdx_cons, hm]
      | k + 1 =>
          have hc : p c = false := hfirst 0 (by simp) (Nat.succ_pos k)
          simp only [List.get] at hm
          rw [List.findIdx_cons, hc, cond_false,
            ih k (Nat.lt_of_succ_lt_succ (by simpa using hi)) hm
              (fun j hj hji =>
                hfirst (j + 1) (by simpa using Nat.succ_lt_succ hj) (Nat.succ_lt_succ hji))]

theorem runExpansion_result {σ τ α ρ St : Type} (f : List τ → α → ρ)
    (selE : St → St × List σ) (argE : St → St × α) (s : List σ) (a : α)
    (hsel : ∀ u, (selE u).2 = s) (harg : ∀ u, (argE u).2 = a) :
    ∀ (l : List (Cand σ τ)) (st : St),
      (runExpansion f selE argE l st).2 = runCands f a s l := by
  intro l
  induction l with
  | nil => intro st; simp [runExpansion, runCands]
  | cons c cs ih =>
      intro st
      by_cases h : matchCand c s
      · simp [runExpansion, runCands, hsel, harg, h]
      · simp [runExpansion, runCands, hsel, harg, h, ih]

theorem runCands_none_iff {σ τ α ρ : Type} (f : List τ → α → ρ) (a : α) (s : List σ) :
    ∀ l : List (Cand σ τ), runCands f a s l = none ↔ ∀ c ∈ l, matchCand c s = false := by
  intro l
  induction l with
  | nil => simp [runCands]
  | cons c cs ih =>
      by_cases h : matchCand c s = true
      · simp [runCands, h]
      · simp [runCands, h, ih]

theorem runCands_some_elim {σ τ α ρ : Type} (f : List τ → α → ρ) (a : α) (s : List σ) :
    ∀ (l : List (Cand σ τ)) (r : ρ), runCands f a s l = some r →
      ∃ c ∈ l, matchCand c s = true ∧ r = f c.tys a := by
  intro l
  induction l with
  | nil => intro r h; simp [runCands] at h
  | cons c cs ih =>
      intro r h
      by_cases hm : matchCand c s = true
      · refine ⟨c, by simp, hm, ?_⟩
        simp [runCands, hm] at h
        exact h.symm
      · simp [runCands, hm] at h
        obtain ⟨c2, hc2, hmm, hr⟩ := ih r h
        exact ⟨c2, by simp [hc2], hmm, hr⟩

theorem runExpansion_argCount {σ τ α ρ : Type} (f : List τ → α → ρ) (a : α) (s : List σ) :
    ∀ (l : List (Cand σ τ)) (n : Nat),
      (runExpansion f (fun t => (t, s)) (fun t => (t + 1, a)) l n).1
        = n + (if (runCands f a s l).isSome then 1 else 0) := by
  intro l
  induction l with
  | nil => intro n; simp [runExpansion, runCands]
  | cons c cs ih =>
      intro n
      by_cases h : matchCand c s = true
      · simp [runExpansion, runCands, h]
      · simp [runExpansion, runCands, h, ih]

theorem runExpansion_selCount {σ τ α ρ : Type} (f : List τ → α → ρ) (a : α) (s : List σ) :
    ∀ (l : List (Cand σ τ)) (n : Nat),
      (runExpansion f (fun t => (t + 1, s)) (fun t => (t, a)) l n).1
        = n + min (l.findIdx (fun c => matchCand c s) + 1) l.length := by
  intro l
  induction l with
  | nil => intro n; simp [runExpansion]
  | cons c cs ih =>
      intro n
      by_cases h : matchCand c s = true
      · simp [runExpansion, List.findIdx_cons, h]
      · simp [runExpansion, List.findIdx_cons, h, ih]
        omega

theorem runExpansion_pure_state {σ τ α ρ St : Type} (f : List τ → α → ρ) (a : α)
    (s : List σ) :
    ∀ (l : List (Cand σ τ)) (st : St),
      (runExpansion f (fun u => (u, s)) (fun u => (u, a)) l st).1 = st := by
  intro l
  induction l with
  | nil => intro st; simp [runExpansion]
  | cons c cs ih =>
      intro st
      by_cases h : matchCand c s = true
      · simp [runExpansion, h]
      · simp [runExpansion, h, ih]

/-- Concrete two-rule table used to exercise the theorems: selector value `0`
chooses type `10`, selector value `1` chooses type `11` (the shape of the
macro's documentation test). -/
def demoRules : List (Entry Nat Nat) :=
  [Entry.mk (fun x => x == 0) [10], Entry.mk (fun x => x == 1) [11]]

/-- Concrete table with overlapping patterns: a wildcard rule (choosing type
`1`) placed before a specific rule for selector value `0` (choosing type
`2`). -/
def overlapRules : List (Entry Nat Nat) :=
  [Entry.mk (fun _ => true) [1], Entry.mk (fun x => x == 0) [2]]

/-- C1: for every rule table, selector, and argument list, if the selector
matches rule `i`'s pattern and matches no rule `j` with `j < i`, then
dispatch returns `Present(result)` where `result` is the operation template
instantiated with rule `i`'s type arguments and invoked with the supplied
arguments. -/
theorem dispatch_first_matching_rule {σ τ α ρ : Type} (f : List τ → α → ρ) (a : α)
    (sv : σ) (rules : List (Entry σ τ)) (i : Nat) (hi : i < rules.length)
    (hm : (rules.get ⟨i, hi⟩).pat sv = true)
    (hfirst : ∀ (j : Nat) (hj : j < rules.length), j < i →
      (rules.get ⟨j, hj⟩).pat sv = false) :
    specialize_call f a [sv] [rules] = some (f (rules.get ⟨i, hi⟩).tys a) := by
  unfold specialize_call
  rw [emit_single_group]
  have hlen : i < (rules.map fun e => Cand.mk [e.pat] e.tys).length := by simpa using hi
  have hres := runCands_first f a [sv] (rules.map fun e => Cand.mk [e.pat] e.tys) i hlen
    (by simp only [List.get_map, matchCand_single]; simpa using hm)
    (fun j hj hji => by
      simp only [List.get_map, matchCand_single]
      simpa using hfirst j (by simpa using hj) hji)
  rw [hres]
  simp [List.get_map]

theorem dispatch_first_matching_rule_wit :
    specialize_call nameF 7 [1] [demoRules] = some [11] :=
  dispatch_first_matching_rule nameF 7 1 demoRules 1 (by decide) (by decide)
    (fun j hj hlt => by
      have hj0 : j = 0 := by omega
      subst hj0
      exact (by decide : (demoRules.get ⟨0, by decide⟩).pat 1 = false))

/-- C2 (counterexample): the authored entry `(pattern => TypeA, TypeA2)` —
here pattern `x == 0` with the two type arguments `10` and `20` — does NOT
expand into two rules: the emission produces exactly one candidate, and a
dispatch on a matching selector invokes the operation with BOTH type
arguments at once (`func::<10, 20>`), not with the first one alone. -/
theorem grouped_entry_one_rule_cex :
    (specializeCallRec ([] : List (Nat → Bool)) []
        [[Entry.mk (fun x => x == 0) [10, 20]]]).length = 1
    ∧ specialize_call nameF 0 [0] [[Entry.mk (fun x => x == 0) [10, 20]]] = some [10, 20]
    ∧ (some [10, 20] : Option (List Nat)) ≠ some [10] := by
  refine ⟨?_, ?_, by decide⟩
  · simp [specializeCallRec, singleMapping]
  · simp [specialize_call, specializeCallRec, singleMapping, runCands, matchCand, nameF]

/-- C2 (amended): a table entry `(pattern => TypeA, TypeA2)` forms a single
rule guarded by that pattern whose type-argument tuple is `(TypeA, TypeA2)`
— the comma-separated types after `=>` are the type arguments of one
multi-parameter instantiation, not alternative instantiations.  For any
selector accepted by the pattern, dispatch returns the one instantiation
`template<TypeA, TypeA2>` applied to the supplied arguments. -/
theorem grouped_entry_single_rule {σ τ α ρ : Type} (p : σ → Bool) (t1 t2 : τ)
    (f : List τ → α → ρ) (a : α) (sv : σ) (h : p sv = true) :
    specializeCallRec ([] : List (σ → Bool)) [] [[Entry.mk p [t1, t2]]]
      = [Cand.mk [p] [t1, t2]]
    ∧ specialize_call f a [sv] [[Entry.mk p [t1, t2]]] = some (f [t1, t2] a) := by
  constructor
  · simp [specializeCallRec, singleMapping]
  · simp [specialize_call, specializeCallRec, singleMapping, runCands, matchCand, h]

theorem grouped_entry_single_rule_wit :
    specializeCallRec ([] : List (Nat → Bool)) [] [[Entry.mk (fun x => x == 1) [10, 20]]]
      = [Cand.mk [fun x => x == 1] [10, 20]]
    ∧ specialize_call nameF 0 [1] [[Entry.mk (fun x => x == 1) [10, 20]]]
      = some [10, 20] :=
  grouped_entry_single_rule (fun x => x == 1) 10 20 nameF 0 1 (by decide)

/-- C3: dispatch cannot fail at runtime — in this embedding it is a total
function into `Option`, and its only outcomes are `some result` exactly when
some emitted rule matched the selector and was invoked, and `none` exactly
when every emitted rule failed to match (the table was exhausted); `none` is
an ordinary value, not an abort or exception. -/
theorem dispatch_outcomes_total {σ τ α ρ : Type} (f : List τ → α → ρ) (a : α)
    (s : List σ) (G : List (List (Entry σ τ))) :
    (specialize_call f a s G = none ↔
      ∀ c ∈ specializeCallRec ([] : List (σ → Bool)) [] G, matchCand c s = false)
    ∧ (∀ r : ρ, specialize_call f a s G = some r →
        ∃ c ∈ specializeCallRec ([] : List (σ → Bool)) [] G,
          matchCand c s = true ∧ r = f c.tys a) := by
  exact ⟨runCands_none_iff f a s _, runCands_some_elim f a s _⟩

/-- C4: the argument expressions are evaluated at most once per dispatch
call, and only inside the single invocation that executes on the first
matching rule; when no rule matches they are never evaluated.  The argument
expression is modelled as bumping a counter; the counter advances by one
exactly when the dispatch outcome is `Present`, and is untouched on
`Absent`. -/
theorem args_evaluated_at_most_once {σ τ α ρ : Type} (f : List τ → α → ρ) (a : α)
    (s : List σ) (G : List (List (Entry σ τ))) (n : Nat) :
    (runExpansion f (fun t => (t, s)) (fun t => (t + 1, a))
        (specializeCallRec [] [] G) n).1
      = n + (if (specialize_call f a s G).isSome then 1 else 0)
    ∧ (runExpansion f (fun t => (t, s)) (fun t => (t + 1, a))
        (specializeCallRec [] [] G) n).2 = specialize_call f a s G := by
  exact ⟨runExpansion_argCount f a s _ n,
    runExpansion_result f _ _ s a (fun u => rfl) (fun u => rfl) _ n⟩

/-- C5: first-match-wins holds uniformly: whenever rules `i < j` both match
the selector (overlapping patterns or exact duplicates) and no rule before
`i` matches, dispatch returns rule `i`'s instantiation, and evaluation stops
after rule `i` — the selector-evaluation counter reaches only `i + 1`, so
rule `j` is never even tested, hence unreachable. -/
theorem first_match_wins {σ τ α ρ : Type} (f : List τ → α → ρ) (a : α) (sv : σ)
    (rules : List (Entry σ τ)) (i j : Nat) (hij : i < j) (hj : j < rules.length)
    (hmi : (rules.get ⟨i, Nat.lt_trans hij hj⟩).pat sv = true)
    (hmj : (rules.get ⟨j, hj⟩).pat sv = true)
    (hfirst : ∀ (k : Nat) (hk : k < rules.length), k < i →
      (rules.get ⟨k, hk⟩).pat sv = false) :
    specialize_call f a [sv] [rules]
      = some (f (rules.get ⟨i, Nat.lt_trans hij hj⟩).tys a)
    ∧ (runExpansion f (fun t => (t + 1, [sv])) (fun t => (t, a))
        (specializeCallRec [] [] [rules]) 0).1 = i + 1 := by
  constructor
  · exact dispatch_first_matching_rule f a sv rules i (Nat.lt_trans hij hj) hmi hfirst
  · rw [emit_single_group, runExpansion_selCount]
    have hidx : (rules.map fun e => Cand.mk [e.pat] e.tys).findIdx
        (fun c => matchCand c [sv]) = i := by
      apply findIdx_of_first (fun c => matchCand c [sv])
        (rules.map fun e => Cand.mk [e.pat] e.tys) i (by simpa using Nat.lt_trans hij hj)
      · simp only [List.get_map, matchCand_single]
        simpa using hmi
      · intro k hk hki
        simp only [List.get_map, matchCand_single]
        simpa using hfirst k (by simpa using hk) hki
    rw [hidx]
    simp
    omega

theorem first_match_wins_wit :
    specialize_call nameF 0 [0] [overlapRules] = some [1]
    ∧ (runExpansion nameF (fun t => (t + 1, [0])) (fun t => (t, 0))
        (specializeCallRec [] [] [overlapRules]) 0).1 = 1 :=
  first_match_wins nameF 0 0 overlapRules 0 1 (by decide) (by decide) (by decide)
    (by decide) (fun k hk hlt => absurd hlt (Nat.not_lt_zero k))

/-- C6: for the empty rule table — a mapping group with no entries — dispatch
returns `Absent` for every operation, every argument value, and every
selector. -/
theorem empty_table_absent {σ τ α ρ : Type} (f : List τ → α → ρ) (a : α) (s : List σ) :
    specialize_call f a s [([] : List (Entry σ τ))] = none := by
  simp [specialize_call, specializeCallRec, singleMapping, runCands]

/-- C8: dispatch is deterministic and stateless.  With the selector and
argument expressions pure, running the expanded dispatch (i) leaves the
ambient state untouched (it writes no mutable state), (ii) produces the
outcome of the pure function `specialize_call` of its inputs alone, and
(iii) yields identical outcomes from any two ambient states (it reads no
mutable state), so repeated calls with identical table, selector, and
arguments agree. -/
theorem dispatch_deterministic_stateless {σ τ α ρ St : Type} (f : List τ → α → ρ)
    (a : α) (s : List σ) (G : List (List (Entry σ τ))) (st st2 : St) :
    (runExpansion f (fun u => (u, s)) (fun u => (u, a))
        (specializeCallRec [] [] G) st).1 = st
    ∧ (runExpansion f (fun u => (u, s)) (fun u => (u, a))
        (specializeCallRec [] [] G) st).2 = specialize_call f a s G
    ∧ (runExpansion f (fun u => (u, s)) (fun u => (u, a))
        (specializeCallRec [] [] G) st).2
      = (runExpansion f (fun u => (u, s)) (fun u => (u, a))
        (specializeCallRec [] [] G) st2).2 := by
  refine ⟨runExpansion_pure_state f a s _ st, ?_, ?_⟩
  · exact runExpansion_result f _ _ s a (fun u => rfl) (fun u => rfl) _ st
  · rw [runExpansion_result f _ _ s a (fun u => rfl) (fun u => rfl) _ st,
      runExpansion_result f _ _ s a (fun u => rfl) (fun u => rfl) _ st2]

/-- C9: with several mapping groups the emitted candidates are the Cartesian
product of the groups: each candidate pairs one pattern drawn from each
group, in order, with the concatenation of those entries' type arguments,
listed in lexicographic order of group-rule indices with earlier groups
varying more slowly; dispatch returns `Present` of the invocation for the
first candidate whose tuple pattern matches the selector, else `Absent`. -/
theorem cartesian_product_semantics {σ τ α ρ : Type} (G : List (List (Entry σ τ))) :
    specializeCallRec ([] : List (σ → Bool)) [] G = cartesianRules G
    ∧ ∀ (f : List τ → α → ρ) (a : α) (s : List σ),
        specialize_call f a s G
          = ((cartesianRules G).find? fun c => matchCand c s).map fun c => f c.tys a := by
  have h := emit_eq_cart G [] []
  rw [show (fun (c : Cand σ τ) => Cand.mk ([] ++ c.pats) ([] ++ c.tys)) = id from
      funext fun c => rfl, List.map_id] at h
  refine ⟨h, ?_⟩
  intro f a s
  unfold specialize_call
  rw [h, runCands_eq_find]

/-- C10: the selector expression is substituted textually into every emitted
match test, so one dispatch call evaluates it once per candidate tested:
modelling the selector expression as bumping a counter, the counter advances
by `min (firstMatchIndex + 1) tableLength` — that is, `k` when the first
match is the `k`-th candidate (1-based), and the full table length when no
candidate matches — not exactly once per call. -/
theorem selector_eval_count {σ τ α ρ : Type} (f : List τ → α → ρ) (a : α)
    (s : List σ) (G : List (List (Entry σ τ))) (n : Nat) :
    (runExpansion f (fun t => (t + 1, s)) (fun t => (t, a))
        (specializeCallRec [] [] G) n).1
      = n + min ((specializeCallRec ([] : List (σ → Bool)) [] G).findIdx
            (fun c => matchCand c s) + 1)
          (specializeCallRec ([] : List (σ → Bool)) [] G).length :=
  runExpansion_selCount f a s _ n
